import Mathlib

/-!
# Verification of a minimal partitioned, retention-bound log store

Shallow embedding of the three evolutionary stages of a small Kafka-style
message broker (`01_simple_kafka.py`, `02_partitions.py`, `03_retention.py`),
together with proofs about offset assignment, routing, retention/vacuum,
and the consumer's gap detection.

Modelling conventions:
  * Python strings (messages and keys) are modelled as their UTF-8 byte
    sequences, `List Nat` with each entry a byte.  Python truthiness of a
    string (`key or message`) is emptiness of the byte list.
  * Python dicts are modelled as association lists in insertion order
    (CPython dicts preserve insertion order; deleting an entry preserves the
    order of the rest).  `dict[k] = v` replaces in place when `k` is present
    and appends otherwise; `list(dict)` is the key list in that order.
  * The partition table `{i: ... for i in range(n)}` has exactly the keys
    `0..n-1`, so it is modelled positionally as a `List` of stores; an index
    `≥ n` corresponds to a Python `KeyError`.
  * `time.time()` is an ambient clock; every operation that reads it takes
    the current time `now : Int` as an explicit argument.
  * A Python function call that raises is an `Except PyErr` value; a Python
    function without a `return` statement returns `none` (Python `None`).
-/

set_option maxRecDepth 40000

/-- Errors a broker call can raise (uncaught Python exceptions). -/
inductive PyErr
  | keyError
  | zeroDivisionError
deriving DecidableEq, Repr

/-! ## SHA-1 (as used by `hashlib.sha1(key).hexdigest()`)

Arithmetic is on `Nat` with explicit reduction modulo `2 ^ 32`. -/

/-- Rotate a 32-bit word (a `Nat` below `2 ^ 32`) left by `s` bits. -/
def rotl32 (s x : Nat) : Nat :=
  ((x <<< s) ||| (x >>> (32 - s))) % (2 ^ 32)

/-- 32-bit complement. -/
def not32 (x : Nat) : Nat := x ^^^ (2 ^ 32 - 1)

/-- SHA-1 padding: append `0x80`, zeros up to 56 mod 64, then the bit length
as 8 big-endian bytes. -/
def sha1pad (msg : List Nat) : List Nat :=
  let len := msg.length
  let zeros := (120 - (len + 1) % 64) % 64
  msg ++ [0x80] ++ List.replicate zeros 0 ++
    (List.range 8).map (fun i => (8 * len) >>> (8 * (7 - i)) % 256)

/-- Big-endian 32-bit word `j` of a 64-byte chunk. -/
def chunkWord (chunk : List Nat) (j : Nat) : Nat :=
  (chunk.getD (4 * j) 0) * 2 ^ 24 + (chunk.getD (4 * j + 1) 0) * 2 ^ 16 +
    (chunk.getD (4 * j + 2) 0) * 2 ^ 8 + chunk.getD (4 * j + 3) 0

/-- Extend the 16 chunk words to the 80-word message schedule. -/
def sha1extend (w : List Nat) : Nat → List Nat
  | 0 => w
  | n + 1 =>
    let w' := sha1extend w n
    let i := w'.length
    w' ++ [rotl32 1 (w'.getD (i - 3) 0 ^^^ w'.getD (i - 8) 0 ^^^
      w'.getD (i - 14) 0 ^^^ w'.getD (i - 16) 0)]

/-- The round function and constant for round `i` of SHA-1. -/
def sha1f (i b c d : Nat) : Nat × Nat :=
  if i < 20 then ((b &&& c) ||| (not32 b &&& d), 0x5A827999)
  else if i < 40 then (b ^^^ c ^^^ d, 0x6ED9EBA1)
  else if i < 60 then ((b &&& c) ||| (b &&& d) ||| (c &&& d), 0x8F1BBCDC)
  else (b ^^^ c ^^^ d, 0xCA62C1D6)

/-- One SHA-1 round: state `(a, b, c, d, e)`, round index `i`, schedule word `w`. -/
def sha1round (st : Nat × Nat × Nat × Nat × Nat) (iw : Nat × Nat) :
    Nat × Nat × Nat × Nat × Nat :=
  let (a, b, c, d, e) := st
  let (f, k) := sha1f iw.1 b c d
  ((rotl32 5 a + f + e + k + iw.2) % 2 ^ 32, a, rotl32 30 b, c, d)

/-- Process one 64-byte chunk, updating the five hash words. -/
def sha1chunk (h : Nat × Nat × Nat × Nat × Nat) (chunk : List Nat) :
    Nat × Nat × Nat × Nat × Nat :=
  let w := sha1extend ((List.range 16).map (chunkWord chunk)) 64
  let (h0, h1, h2, h3, h4) := h
  let (a, b, c, d, e) :=
    (((List.range 80).zip w).foldl sha1round (h0, h1, h2, h3, h4))
  ((h0 + a) % 2 ^ 32, (h1 + b) % 2 ^ 32, (h2 + c) % 2 ^ 32,
    (h3 + d) % 2 ^ 32, (h4 + e) % 2 ^ 32)

/-- Process the padded message 64 bytes at a time (`n` chunks remain). -/
def sha1chunks (h : Nat × Nat × Nat × Nat × Nat) (l : List Nat) :
    Nat → Nat × Nat × Nat × Nat × Nat
  | 0 => h
  | n + 1 => sha1chunks (sha1chunk h (l.take 64)) (l.drop 64) n

/-- Python `int(hashlib.sha1(key).hexdigest(), 16)`: the SHA-1 digest of a byte
sequence, read as a 160-bit natural number. -/
def sha1int (msg : List Nat) : Nat :=
  let padded := sha1pad msg
  let (h0, h1, h2, h3, h4) :=
    sha1chunks (0x67452301, 0xEFCDAB89, 0x98BADCFE, 0x10325476, 0xC3D2E1F0)
      padded (padded.length / 64)
  h0 * 2 ^ 128 + h1 * 2 ^ 96 + h2 * 2 ^ 64 + h3 * 2 ^ 32 + h4

/-! ## Association lists modelling Python dicts (insertion order) -/

/-- Python `d[k]` as an `Option`: first (unique) binding of `k`. -/
def dictGet? {κ α : Type} [DecidableEq κ] : List (κ × α) → κ → Option α
  | [], _ => none
  | (k', v) :: rest, k => if k' = k then some v else dictGet? rest k

/-- Python `d[k] = v`: replace in place if `k` is bound, else append at the end. -/
def dictSet {κ α : Type} [DecidableEq κ] : List (κ × α) → κ → α → List (κ × α)
  | [], k, v => [(k, v)]
  | (k', v') :: rest, k, v =>
    if k' = k then (k, v) :: rest else (k', v') :: dictSet rest k v

/-! ## `03_retention.py`: records, topics, broker, consumer -/

/-- Python strings are carried as their UTF-8 byte sequences. -/
abbrev Msg := List Nat

/-- Class `Record`: the message plus metadata (`03_retention.py`, `class Record`).
`key` holds the already-encoded routing key that `send_message` stores. -/
structure Record where
  timestamp : Int
  key : Msg
  message : Msg
deriving DecidableEq, Repr

/-- One partition's backing dict, offset → record, in insertion order. -/
abbrev Store := List (Int × Record)

/-- Class `Topic` (`03_retention.py`): partition count, retention, and the
partition dict `{i: {} for i in range(num_partitions)}`, modelled
positionally. -/
structure Topic where
  num_partitions : Nat
  retention_seconds : Int
  partitions : List Store
deriving DecidableEq, Repr

/-- Method `Topic.vacuum`: delete every record with
`rec.timestamp + retention_seconds < now` from every partition.  The Python
loop deletes from the dict while iterating over a snapshot, which keeps
exactly the non-expired records in their original order. -/
def Topic.vacuum (t : Topic) (now : Int) : Topic :=
  { t with partitions :=
      t.partitions.map fun records =>
        records.filter fun or => ¬ (or.2.timestamp + t.retention_seconds < now) }

/-- Class `Broker` (`03_retention.py`): named topics, as a dict. -/
structure Broker where
  topics : List (String × Topic)
deriving DecidableEq, Repr

/-- Method `Broker.vacuum`: run `Topic.vacuum` on every topic. -/
def Broker.vacuum (b : Broker) (now : Int) : Broker :=
  { topics := b.topics.map fun nt => (nt.1, nt.2.vacuum now) }

/-- Method `Broker.create_topic`: `self.topics[name] = Topic(num_partitions,
retention_seconds)` — an unconditional dict assignment. -/
def Broker.create_topic (b : Broker) (name : String) (num_partitions : Nat)
    (retention_seconds : Int) : Broker :=
  { topics := dictSet b.topics name
      ⟨num_partitions, retention_seconds, List.replicate num_partitions []⟩ }

/-- Python `(key or message).encode('utf-8')`: the explicit key if it is truthy
(non-`None` and non-empty), else the message. -/
def effectiveKey (message : Msg) (key : Option Msg) : Msg :=
  match key with
  | some k => if k = [] then message else k
  | none => message

/-- Python `int(hashlib.sha1(key).hexdigest(), 16) % topic.num_partitions`
(`03_retention.py` lines 103–104). -/
def route (num_partitions : Nat) (message : Msg) (key : Option Msg) : Nat :=
  sha1int (effectiveKey message key) % num_partitions

/-- Method `Broker.get_last_offset`: the last key of the partition's dict, or `-1`
when the dict is empty (`offsets = list(...) or [-1]; return offsets[-1]`).
Raises `KeyError` for an unknown topic or partition index. -/
def Broker.get_last_offset (b : Broker) (topic_name : String) (partition : Nat) :
    Except PyErr Int :=
  match dictGet? b.topics topic_name with
  | none => .error .keyError
  | some topic =>
    match topic.partitions[partition]? with
    | none => .error .keyError
    | some records => .ok (((records.map Prod.fst).getLastD (-1)))

/-- Method `Broker.get_first_offset`: the first key of the partition's dict, or
`-1` when it is empty. -/
def Broker.get_first_offset (b : Broker) (topic_name : String) (partition : Nat) :
    Except PyErr Int :=
  match dictGet? b.topics topic_name with
  | none => .error .keyError
  | some topic =>
    match topic.partitions[partition]? with
    | none => .error .keyError
    | some records => .ok (((records.map Prod.fst).headD (-1)))

/-- Method `Broker.send_message`: route by key, build a record stamped `now`, store
it at `get_last_offset + 1`.  The Python function has no `return`
statement, so its value is `none` (Python `None`); the new broker state is
returned alongside it.  `num_partitions = 0` raises `ZeroDivisionError`
(`% 0`), an unknown topic raises `KeyError`. -/
def Broker.send_message (b : Broker) (topic_name : String) (message : Msg)
    (key : Option Msg) (now : Int) : Except PyErr (Option (Nat × Int) × Broker) :=
  match dictGet? b.topics topic_name with
  | none => .error .keyError
  | some topic =>
    if topic.num_partitions = 0 then .error .zeroDivisionError
    else
      let k := effectiveKey message key
      let partition := route topic.num_partitions message key
      let record : Record := ⟨now, k, message⟩
      match topic.partitions[partition]? with
      | none => .error .keyError
      | some records =>
        let offset := (records.map Prod.fst).getLastD (-1) + 1
        .ok (none,
          { topics := dictSet b.topics topic_name
              { topic with partitions :=
                  topic.partitions.set partition (dictSet records offset record) } })

/-- Method `Broker.read_message`: look the topic up (a `KeyError` here escapes),
then return `partitions[partition][offset].message` with every exception
mapped to `None`. -/
def Broker.read_message (b : Broker) (topic_name : String) (partition : Nat)
    (offset : Int) : Except PyErr (Option Msg) :=
  match dictGet? b.topics topic_name with
  | none => .error .keyError
  | some topic =>
    match topic.partitions[partition]? with
    | none => .ok none
    | some records => .ok ((dictGet? records offset).map Record.message)

/-- Class `Consumer` (`03_retention.py`): bound to one topic and partition, with a
private cursor `offset`.  The broker it reads from is passed explicitly. -/
structure Consumer where
  topic : String
  partition : Nat
  offset : Int
deriving DecidableEq, Repr

/-- Method `Consumer.get_next_message`: detect a gap (cursor below the oldest live
offset), jump the cursor forward, then read at the cursor and advance if the
cursor is at most the newest live offset.  The result carries the gap report
(`(from, to)` of the "skipping ahead" message, `none` when no gap), the
returned message (`none` both when caught up and when the read misses), and
the updated consumer. -/
def Consumer.get_next_message (c : Consumer) (b : Broker) :
    Except PyErr (Option (Int × Int) × Option Msg × Consumer) := do
  let oldest ← b.get_first_offset c.topic c.partition
  let (gap, c₁) :=
    if oldest > c.offset then (some (c.offset, oldest), { c with offset := oldest })
    else (none, c)
  let newest ← b.get_last_offset c₁.topic c₁.partition
  if c₁.offset ≤ newest then
    let msg ← b.read_message c₁.topic c₁.partition c₁.offset
    return (gap, msg, { c₁ with offset := c₁.offset + 1 })
  else
    return (gap, none, c₁)

/-! ## `01_simple_kafka.py`: the earliest, non-partitioned design

Offsets in this design are plain list indices; the consumer's cursor starts
at `0` and only ever grows, so it is a `Nat`. -/

/-- Class `Broker` of `01_simple_kafka.py`: each topic is a bare message list. -/
structure Broker1 where
  topics : List (String × List Msg)
deriving DecidableEq, Repr

/-- Method `send_message` of `01_simple_kafka.py`: append to the topic list
(`KeyError` if the topic does not exist). -/
def Broker1.send_message (b : Broker1) (topic_name : String) (message : Msg) :
    Except PyErr Broker1 :=
  match dictGet? b.topics topic_name with
  | none => .error .keyError
  | some l => .ok ⟨dictSet b.topics topic_name (l ++ [message])⟩

/-- Method `read_message` of `01_simple_kafka.py`: `self.topics[topic_name][offset]`
with every exception (unknown topic or out-of-range offset) turned into
`None`. -/
def Broker1.read_message (b : Broker1) (topic_name : String) (offset : Nat) :
    Option Msg :=
  match dictGet? b.topics topic_name with
  | none => none
  | some l => l[offset]?

/-- Method `get_last_offset` of `01_simple_kafka.py`: `len(self.topics[topic_name])`
— the record *count*, not the highest assigned index. -/
def Broker1.get_last_offset (b : Broker1) (topic_name : String) :
    Except PyErr Nat :=
  match dictGet? b.topics topic_name with
  | none => .error .keyError
  | some l => .ok l.length

/-- Class `Consumer` of `01_simple_kafka.py`. -/
structure Consumer1 where
  topic : String
  offset : Nat
deriving DecidableEq, Repr

/-- Method `get_next_message` of `01_simple_kafka.py`: when
`offset ≤ get_last_offset`, read at the cursor and advance; otherwise return
`None` with the cursor unchanged. -/
def Consumer1.get_next_message (c : Consumer1) (b : Broker1) :
    Except PyErr (Option Msg × Consumer1) := do
  let newest ← b.get_last_offset c.topic
  if c.offset ≤ newest then
    return (b.read_message c.topic c.offset, { c with offset := c.offset + 1 })
  else
    return (none, c)

/-! Trace semantics for the design-01 client: a producer appends and the
consumer polls, in any interleaving.  `runReads1` records the offset of
every read the consumer's polls actually attempt, which is what "a message
at offset `o` is permanently skipped" is about. -/

/-- An operation against the design-01 broker, as seen by one consumer. -/
inductive Op1
  | send (topic_name : String) (message : Msg)
  | poll
deriving DecidableEq, Repr

/-- Apply one operation; an operation that raises leaves the state
unchanged. -/
def step1 (b : Broker1) (c : Consumer1) : Op1 → Broker1 × Consumer1
  | .send t m =>
    match b.send_message t m with
    | .ok b' => (b', c)
    | .error _ => (b, c)
  | .poll =>
    match c.get_next_message b with
    | .ok (_, c') => (b, c')
    | .error _ => (b, c)

/-- The offset `get_next_message` would read from right now: defined exactly
when the cursor-vs-last-offset guard lets the read happen. -/
def pollRead1 (b : Broker1) (c : Consumer1) : List Nat :=
  match b.get_last_offset c.topic with
  | .ok newest => if c.offset ≤ newest then [c.offset] else []
  | .error _ => []

/-- All offsets read by the consumer's polls along a trace of operations. -/
def runReads1 (b : Broker1) (c : Consumer1) : List Op1 → List Nat
  | [] => []
  | op :: rest =>
    (match op with | .poll => pollRead1 b c | .send _ _ => []) ++
      runReads1 (step1 b c op).1 (step1 b c op).2 rest

/-! ## `02_partitions.py`: partitioned, still count-based offsets

Only the pieces C9 refers to: `get_last_offset` is
`len(topic.partitions[partition])`, and the consumer logic is identical to
design 01 modulo the partition argument. -/

/-- Class `Topic` of `02_partitions.py`: each partition is a bare message list. -/
structure Topic2 where
  num_partitions : Nat
  partitions : List (List Msg)
deriving DecidableEq, Repr

/-- Class `Broker` of `02_partitions.py`. -/
structure Broker2 where
  topics : List (String × Topic2)
deriving DecidableEq, Repr

/-- Method `get_last_offset` of `02_partitions.py`: again the record count. -/
def Broker2.get_last_offset (b : Broker2) (topic_name : String) (partition : Nat) :
    Except PyErr Nat :=
  match dictGet? b.topics topic_name with
  | none => .error .keyError
  | some topic =>
    match topic.partitions[partition]? with
    | none => .error .keyError
    | some l => .ok l.length

/-- Method `read_message` of `02_partitions.py`: all exceptions beyond the topic
lookup become `None`. -/
def Broker2.read_message (b : Broker2) (topic_name : String) (partition : Nat)
    (offset : Nat) : Except PyErr (Option Msg) :=
  match dictGet? b.topics topic_name with
  | none => .error .keyError
  | some topic =>
    match topic.partitions[partition]? with
    | none => .ok none
    | some l => .ok l[offset]?

/-- Class `Consumer` of `02_partitions.py`. -/
structure Consumer2 where
  topic : String
  partition : Nat
  offset : Nat
deriving DecidableEq, Repr

/-- Method `get_next_message` of `02_partitions.py`. -/
def Consumer2.get_next_message (c : Consumer2) (b : Broker2) :
    Except PyErr (Option Msg × Consumer2) := do
  let newest ← b.get_last_offset c.topic c.partition
  if c.offset ≤ newest then
    let msg ← b.read_message c.topic c.partition c.offset
    return (msg, { c with offset := c.offset + 1 })
  else
    return (none, c)

/-! ## Trace semantics for `03_retention.py`

Every state-changing broker entry point, each invocation stamped with the
clock reading `time.time()` returned during it.  An operation that raises
leaves the state unchanged (the Python code mutates nothing before its
lookups succeed). -/

/-- A state-changing operation against the retention-aware broker. -/
inductive Op
  | createTopic (name : String) (num_partitions : Nat) (retention_seconds : Int)
  | send (topic_name : String) (message : Msg) (key : Option Msg)
  | vacuum
deriving DecidableEq, Repr

/-- Apply one timestamped operation to the broker. -/
def stepOp (b : Broker) (op : Op) (now : Int) : Broker :=
  match op with
  | .createTopic name np ret => b.create_topic name np ret
  | .send t m k =>
    match b.send_message t m k now with
    | .ok (_, b') => b'
    | .error _ => b
  | .vacuum => b.vacuum now

/-- Run a timestamped trace of operations from a broker state. -/
def runOps (b : Broker) : List (Op × Int) → Broker
  | [] => b
  | (op, now) :: rest => runOps (stepOp b op now) rest

/-- Repeatedly poll the same broker state: the list of messages returned by
`n` successive `get_next_message` calls (stopping if a call raises). -/
def pollResults (b : Broker) : Consumer → Nat → List (Option Msg)
  | _, 0 => []
  | c, n + 1 =>
    match c.get_next_message b with
    | .ok (_, m, c') => m :: pollResults b c' n
    | .error _ => []

/-- Internal well-formedness of one partition store: the offsets are
consecutive (each key is its predecessor plus one — a contiguous range) and
the record timestamps are non-decreasing in offset order. -/
def StoreInv (s : Store) : Prop :=
  (s.map Prod.fst).Chain' (fun a b => b = a + 1) ∧
  (s.map fun or => or.2.timestamp).Chain' (· ≤ ·)

/-- Broker-wide invariant at clock bound `T`: every partition store of every
topic is well formed and only holds timestamps at most `T`. -/
def BrokerInv (T : Int) (b : Broker) : Prop :=
  ∀ nt ∈ b.topics, ∀ s ∈ nt.2.partitions,
    StoreInv s ∧ ∀ or ∈ s, or.2.timestamp ≤ T

/-! ## Helper lemmas about the dict model -/

theorem dictGet?_dictSet_self {κ α : Type} [DecidableEq κ] (l : List (κ × α))
    (k : κ) (v : α) : dictGet? (dictSet l k v) k = some v := by
  induction l with
  | nil => simp [dictGet?, dictSet]
  | cons hd tl ih =>
    by_cases h : hd.1 = k <;> simp [dictGet?, dictSet, h, ih]

theorem dictGet?_dictSet_ne {κ α : Type} [DecidableEq κ] (l : List (κ × α))
    (k k' : κ) (v : α) (h : k' ≠ k) :
    dictGet? (dictSet l k v) k' = dictGet? l k' := by
  have hne : k ≠ k' := Ne.symm h
  induction l with
  | nil => simp [dictGet?, dictSet, hne]
  | cons hd tl ih =>
    by_cases hk : hd.1 = k
    · subst hk
      simp [dictGet?, dictSet, hne]
    · simp [dictGet?, dictSet, hk, ih]

theorem dictGet?_eq_none_of_not_mem {κ α : Type} [DecidableEq κ]
    {l : List (κ × α)} {k : κ} (h : k ∉ l.map Prod.fst) :
    dictGet? l k = none := by
  induction l with
  | nil => rfl
  | cons hd tl ih =>
    simp only [List.map_cons, List.mem_cons, not_or] at h
    have : hd.1 ≠ k := Ne.symm h.1
    simp [dictGet?, this, ih h.2]

theorem mem_map_fst_of_dictGet? {κ α : Type} [DecidableEq κ]
    {l : List (κ × α)} {k : κ} {v : α} (h : dictGet? l k = some v) :
    (k, v) ∈ l := by
  induction l with
  | nil => simp [dictGet?] at h
  | cons hd tl ih =>
    obtain ⟨k', v'⟩ := hd
    by_cases hk : k' = k
    · subst hk
      simp [dictGet?] at h
      subst h
      exact .head _
    · simp [dictGet?, hk] at h
      exact .tail _ (ih h)

theorem dictSet_eq_append {κ α : Type} [DecidableEq κ]
    {l : List (κ × α)} {k : κ} (v : α) (h : k ∉ l.map Prod.fst) :
    dictSet l k v = l ++ [(k, v)] := by
  induction l with
  | nil => rfl
  | cons hd tl ih => simp_all [dictSet, Ne.symm]

theorem mem_dictSet {κ α : Type} [DecidableEq κ]
    {l : List (κ × α)} {k : κ} {v : α} {x : κ × α} (h : x ∈ dictSet l k v) :
    x ∈ l ∨ x = (k, v) := by
  induction l with
  | nil => simpa [dictSet] using h
  | cons hd tl ih =>
    by_cases hk : hd.1 = k
    · simp [dictSet, hk] at h
      rcases h with h | h
      · right; simp [h]
      · left; exact .tail _ h
    · simp [dictSet, hk] at h
      rcases h with h | h
      · left; simp [h]
      · rcases ih h with h' | h'
        · left; exact .tail _ h'
        · right; exact h'

theorem dictGet?_map_value {κ α β : Type} [DecidableEq κ]
    (l : List (κ × α)) (f : α → β) (k : κ) :
    dictGet? (l.map fun kv => (kv.1, f kv.2)) k = (dictGet? l k).map f := by
  induction l with
  | nil => rfl
  | cons hd tl ih => by_cases hk : hd.1 = k <;> simp [dictGet?, hk, ih]

theorem dictGet?_filter {κ α : Type} [DecidableEq κ]
    {l : List (κ × α)} (hnd : (l.map Prod.fst).Nodup) (p : κ × α → Bool)
    (k : κ) :
    dictGet? (l.filter p) k =
      (dictGet? l k).bind fun v => if p (k, v) then some v else none := by
  induction l with
  | nil => rfl
  | cons hd tl ih =>
    obtain ⟨k', v'⟩ := hd
    simp only [List.map_cons, List.nodup_cons] at hnd
    by_cases hk : k' = k
    · subst hk
      by_cases hp : p (k', v')
      · simp [dictGet?, List.filter, hp]
      · have hnone : dictGet? (tl.filter p) k' = none := by
          apply dictGet?_eq_none_of_not_mem
          intro hmem
          exact hnd.1 (by
            obtain ⟨⟨a, b⟩, hab, rfl⟩ := List.mem_map.mp hmem
            exact List.mem_map.mpr ⟨(a, b), (List.mem_filter.mp hab).1, rfl⟩)
        simp [dictGet?, List.filter, hp, hnone]
    · by_cases hp : p (k', v') <;>
        simp [dictGet?, List.filter, hp, hk, ih hnd.2]

/-! ## Helper lemmas about sorted key and timestamp lists -/

theorem le_getLastD_of_le {a d : Int} {l : List Int} (had : a ≤ d)
    (h : ∀ b ∈ l, a ≤ b) : a ≤ l.getLastD d := by
  induction l generalizing d with
  | nil => exact had
  | cons x xs ih =>
    rw [List.getLastD_cons]
    exact ih (h x (.head _)) fun b hb => h b (.tail _ hb)

theorem mem_le_getLastD {l : List Int} (hs : l.Pairwise (· ≤ ·)) {a : Int}
    (ha : a ∈ l) (d : Int) : a ≤ l.getLastD d := by
  induction l generalizing d with
  | nil => cases ha
  | cons x xs ih =>
    rw [List.getLastD_cons]
    cases ha with
    | head =>
      exact le_getLastD_of_le le_rfl (List.pairwise_cons.mp hs).1
    | tail _ ha => exact ih (List.pairwise_cons.mp hs).2 ha x

theorem headD_le_getLastD {l : List Int} (hs : l.Pairwise (· ≤ ·)) (d : Int) :
    l.headD d ≤ l.getLastD d := by
  cases l with
  | nil => exact le_rfl
  | cons x xs =>
    exact mem_le_getLastD hs (.head _) d

theorem pairwise_lt_of_chain_succ {l : List Int}
    (h : l.Chain' (fun a b => b = a + 1)) : l.Pairwise (· < ·) :=
  List.chain'_iff_pairwise.mp (h.imp fun _ _ hab => by omega)

/-! ## Helper lemmas about filtering stores -/

theorem filter_not_eq_dropWhile {α : Type} (p : α → Bool) (l : List α)
    (h : l.Pairwise fun a b => p b = true → p a = true) :
    (l.filter fun x => !p x) = l.dropWhile p := by
  induction l with
  | nil => rfl
  | cons x xs ih =>
    obtain ⟨hx, hxs⟩ := List.pairwise_cons.mp h
    by_cases hp : p x = true
    · simp [List.filter, List.dropWhile, hp, ih hxs]
    · have hall : ∀ a ∈ xs, p a = false := fun a ha => by
        rcases Bool.eq_false_or_eq_true (p a) with h' | h'
        · exact absurd (hx a ha h') (by simp [hp])
        · exact h'
      have : (xs.filter fun x => !p x) = xs :=
        List.filter_eq_self.mpr fun a ha => by simp [hall a ha]
      simp [List.filter, List.dropWhile, hp, this]

theorem chain'_of_suffix {α : Type} {R : α → α → Prop} {l₁ l₂ : List α}
    (h : List.Chain' R l₂) (hs : l₁ <:+ l₂) : List.Chain' R l₁ :=
  List.Chain'.suffix h hs

/-- Vacuuming a well-formed store keeps a suffix of it (retention evicts a
downward-closed prefix of the live offsets) and preserves well-formedness. -/
theorem storeInv_filter_keep (R now : Int) {s : Store} (hs : StoreInv s) :
    ((s.filter fun or => ¬ (or.2.timestamp + R < now)) <:+ s) ∧
      StoreInv (s.filter fun or => ¬ (or.2.timestamp + R < now)) := by
  have hpw : s.Pairwise fun a b =>
      decide (b.2.timestamp + R < now) = true →
      decide (a.2.timestamp + R < now) = true := by
    have := (List.pairwise_map.mp (List.chain'_iff_pairwise.mp hs.2))
    exact this.imp fun hab => by
      intro hlt
      simp only [decide_eq_true_eq] at *
      omega
  have heq : (s.filter fun or => ¬ (or.2.timestamp + R < now)) =
      s.dropWhile fun or => decide (or.2.timestamp + R < now) := by
    have hcongr : (s.filter fun or => ¬ (or.2.timestamp + R < now)) =
        s.filter fun or => !decide (or.2.timestamp + R < now) := by
      apply List.filter_congr
      intro a _
      rcases lt_or_le (a.2.timestamp + R) now with h | h
      · simp [h, not_le.mpr h]
      · simp [h, not_lt.mpr h]
    rw [hcongr]
    exact filter_not_eq_dropWhile
      (fun or : Int × Record => decide (or.2.timestamp + R < now)) s hpw
  rw [heq]
  refine ⟨List.dropWhile_suffix _, ?_, ?_⟩
  · exact chain'_of_suffix hs.1 ((List.dropWhile_suffix _).map Prod.fst)
  · exact chain'_of_suffix hs.2 ((List.dropWhile_suffix _).map _)

/-! ## Claim C3: topic creation under an existing name -/

/-- C3 counterexample: creating `"t"` a second time does not fail — it
silently replaces the existing topic (partition count 1, retention 5) with
the new one (partition count 3, retention 7). -/
theorem create_topic_replaces_cx :
    ((Broker.mk []).create_topic "t" 1 5).create_topic "t" 3 7 =
      Broker.mk [("t", ⟨3, 7, [[], [], []]⟩)] := by
  rfl

/-- C3 (amended): `Broker.create_topic` never fails with `AlreadyExists`;
when the name is already registered it silently replaces the existing topic
with a fresh one (implicit upsert). -/
theorem create_topic_is_upsert (b : Broker) (name : String)
    (num_partitions : Nat) (retention_seconds : Int) (old : Topic)
    (_h : dictGet? b.topics name = some old) :
    dictGet? ((b.create_topic name num_partitions retention_seconds).topics)
      name =
      some ⟨num_partitions, retention_seconds,
        List.replicate num_partitions []⟩ :=
  dictGet?_dictSet_self ..

/-- C3 witness: instantiating the amended claim on a broker that already has
a topic `"t"`. -/
theorem create_topic_is_upsert_witness :
    dictGet? (Broker.mk [("t", ⟨1, 5, [[]]⟩)]).topics "t" = some ⟨1, 5, [[]]⟩ ∧
    dictGet? (((Broker.mk [("t", ⟨1, 5, [[]]⟩)]).create_topic "t" 3 7).topics)
      "t" = some ⟨3, 7, List.replicate 3 []⟩ :=
  ⟨by decide,
    create_topic_is_upsert (Broker.mk [("t", ⟨1, 5, [[]]⟩)]) "t" 3 7
      ⟨1, 5, [[]]⟩ (by decide)⟩

/-! ## Claim C7: reads with a bad partition index -/

/-- C7 counterexample: on a topic with 2 partitions, reading partition 5
(out of range) yields `.ok none` — exactly the same observable result as the
`NotFound` read of a never-assigned offset on a valid partition — rather
than a distinct `InvalidPartition` error. -/
theorem read_invalid_partition_cx :
    (((Broker.mk []).create_topic "t" 2 5).read_message "t" 5 0 = .ok none) ∧
    (((Broker.mk []).create_topic "t" 2 5).read_message "t" 0 0 = .ok none) := by
  exact ⟨rfl, rfl⟩

/-- C7 (amended): for an existing topic, `Broker.read_message` with a
partition index outside `[0, partition_count)` returns `None` (every
exception inside the lookup is swallowed), observably identical to the
`NotFound` result for a missing or evicted offset; no `InvalidPartition`
error reaches the caller. -/
theorem read_invalid_partition_returns_none (b : Broker) (t : String)
    (topic : Topic) (p : Nat) (o : Int)
    (ht : dictGet? b.topics t = some topic)
    (hlen : topic.partitions.length = topic.num_partitions)
    (hp : topic.num_partitions ≤ p) :
    b.read_message t p o = .ok none := by
  have hnone : topic.partitions[p]? = none :=
    List.getElem?_eq_none (by omega)
  simp [Broker.read_message, ht, hnone]

/-- C7 witness: reading partition 5 and offset 0 of a 2-partition topic. -/
theorem read_invalid_partition_returns_none_witness :
    (dictGet? (Broker.mk [("t", ⟨2, 5, [[], []]⟩)]).topics "t" =
      some ⟨2, 5, [[], []]⟩) ∧
    (Broker.mk [("t", ⟨2, 5, [[], []]⟩)]).read_message "t" 5 0 = .ok none :=
  ⟨by decide,
    read_invalid_partition_returns_none (Broker.mk [("t", ⟨2, 5, [[], []]⟩)])
      "t" ⟨2, 5, [[], []]⟩ 5 0 (by decide) (by decide) (by decide)⟩

/-! ## Claim C8: deterministic routing -/

/-- C8: partition routing is a pure function of the routing key — when an
explicit non-empty key `k` is given, the payload is ignored, so repeated
sends with key `k` map to one and the same partition index — and the index
always lies in `[0, partition_count)` (for a positive partition count). -/
theorem routing_deterministic_in_range (num_partitions : Nat) (m₁ m₂ k : Msg)
    (hk : k ≠ []) (hnp : 0 < num_partitions) :
    route num_partitions m₁ (some k) = route num_partitions m₂ (some k) ∧
      route num_partitions m₁ (some k) < num_partitions := by
  constructor
  · simp [route, effectiveKey, hk]
  · exact Nat.mod_lt _ hnp

/-- C8 witness: routing the key `"J"` (byte 74) with two different payloads
on a 2-partition topic. -/
theorem routing_deterministic_in_range_witness :
    ([74] : Msg) ≠ [] ∧ 0 < 2 ∧
      (route 2 [1] (some [74]) = route 2 [2] (some [74]) ∧
        route 2 [1] (some [74]) < 2) :=
  ⟨by decide, by decide,
    routing_deterministic_in_range 2 [1] [2] [74] (by decide) (by decide)⟩

/-! ## Claim C2: what `send_message` returns -/

/-- C2 counterexample: on an existing topic the Python `send_message` has no
`return` statement, so the call's value is `None`, not the pair
`(partition_index, offset)`; here the message demonstrably lands at
partition 0, offset 0, yet the caller gets `None` back. -/
theorem send_returns_none_cx :
    ((((Broker.mk []).create_topic "t" 1 5).send_message "t" [97] none 0).map
        Prod.fst = .ok none) ∧
    (((Broker.mk []).create_topic "t" 1 5).send_message "t" [97] none 0).map
        (fun r => r.2.read_message "t" 0 0) = .ok (.ok (some [97])) := by
  exact ⟨rfl, rfl⟩

/-- C2 (amended): for every existing topic (with a positive partition count
and a store for the routed partition), `send_message` succeeds and the
message lands at partition index `route` and offset `last live offset + 1` —
reading back there returns the message — but the call returns `None` rather
than that `(partition_index, offset)` pair. -/
theorem send_message_lands_but_returns_none (b : Broker) (t : String)
    (topic : Topic) (records : Store) (m : Msg) (key : Option Msg) (now : Int)
    (ht : dictGet? b.topics t = some topic)
    (hrec : topic.partitions[route topic.num_partitions m key]? = some records)
    (hnp : topic.num_partitions ≠ 0) :
    ∃ b', b.send_message t m key now = .ok (none, b') ∧
      b'.read_message t (route topic.num_partitions m key)
        ((records.map Prod.fst).getLastD (-1) + 1) = .ok (some m) := by
  have hlt : route topic.num_partitions m key < topic.partitions.length :=
    (List.getElem?_eq_some.mp hrec).1
  refine ⟨Broker.mk (dictSet b.topics t
      (Topic.mk topic.num_partitions topic.retention_seconds
        (topic.partitions.set (route topic.num_partitions m key)
          (dictSet records ((records.map Prod.fst).getLastD (-1) + 1)
            ⟨now, effectiveKey m key, m⟩)))), ?_, ?_⟩
  · simp [Broker.send_message, ht, hrec, hnp]
  · simp [Broker.read_message, dictGet?_dictSet_self,
      List.getElem?_set_self hlt]

/-- C2 witness: a one-partition topic with an empty store; the send lands at
partition `route 1 [97] none = 0`, offset `0`, and returns `None`. -/
theorem send_message_lands_but_returns_none_witness :
    dictGet? (Broker.mk [("t", ⟨1, 5, [[]]⟩)]).topics "t" = some ⟨1, 5, [[]]⟩ ∧
    (Topic.mk 1 5 [[]]).partitions[route 1 [97] none]? = some [] ∧
    (1 : Nat) ≠ 0 ∧
    (∃ b', (Broker.mk [("t", ⟨1, 5, [[]]⟩)]).send_message "t" [97] none 0 =
        .ok (none, b') ∧
      b'.read_message "t" (route 1 [97] none)
        ((([] : Store).map Prod.fst).getLastD (-1) + 1) = .ok (some [97])) :=
  ⟨by decide, by decide, by decide,
    send_message_lands_but_returns_none (Broker.mk [("t", ⟨1, 5, [[]]⟩)]) "t"
      ⟨1, 5, [[]]⟩ [] [97] none 0 (by decide) (by decide) (by decide)⟩

/-! ## Claim C4: gap detection on poll -/

/-- C4: when a consumer's cursor is strictly below the oldest live offset of
its (non-empty, well-ordered) partition, `get_next_message` reports the gap
`(cursor, oldest)`, jumps the cursor to the oldest live offset, reads the
record stored there, returns its message, and leaves the cursor one past the
oldest live offset. -/
theorem gap_detection (b : Broker) (topic : Topic) (tl : Store) (o₀ : Int)
    (r₀ : Record) (c : Consumer)
    (ht : dictGet? b.topics c.topic = some topic)
    (hrec : topic.partitions[c.partition]? = some ((o₀, r₀) :: tl))
    (hsorted : (((o₀, r₀) :: tl).map Prod.fst).Pairwise (· < ·))
    (hbehind : c.offset < o₀) :
    c.get_next_message b =
      .ok (some (c.offset, o₀), some r₀.message,
        ⟨c.topic, c.partition, o₀ + 1⟩) := by
  have h1 : b.get_first_offset c.topic c.partition = .ok o₀ := by
    simp [Broker.get_first_offset, ht, hrec]
  have hle : o₀ ≤ ((((o₀, r₀) :: tl).map Prod.fst).getLastD (-1)) :=
    mem_le_getLastD (hsorted.imp le_of_lt) (by simp) (-1)
  have h2 : b.get_last_offset c.topic c.partition =
      .ok ((((o₀, r₀) :: tl).map Prod.fst).getLastD (-1)) := by
    simp [Broker.get_last_offset, ht, hrec]
  have h3 : b.read_message c.topic c.partition o₀ = .ok (some r₀.message) := by
    simp [Broker.read_message, ht, hrec, dictGet?]
  simp only [Consumer.get_next_message, h1, h2, h3, Bind.bind, Except.bind,
    if_pos (show o₀ > c.offset from hbehind)]
  rw [if_pos hle]
  rfl

/-- C4 witness: a consumer at cursor 0 while the partition's live offsets
are 3 and 4 (offsets 0–2 evicted): the poll reports the gap `(0, 3)`,
returns the record at offset 3, and leaves the cursor at 4. -/
theorem gap_detection_witness :
    dictGet? (Broker.mk [("t",
        ⟨1, 5, [[(3, ⟨10, [1], [7]⟩), (4, ⟨11, [1], [8]⟩)]]⟩)]).topics "t" =
      some ⟨1, 5, [[(3, ⟨10, [1], [7]⟩), (4, ⟨11, [1], [8]⟩)]]⟩ ∧
    ((0 : Int) < 3) ∧
    (Consumer.mk "t" 0 0).get_next_message (Broker.mk [("t",
        ⟨1, 5, [[(3, ⟨10, [1], [7]⟩), (4, ⟨11, [1], [8]⟩)]]⟩)]) =
      .ok (some (0, 3), some [7], ⟨"t", 0, 4⟩) :=
  ⟨by decide, by decide,
    gap_detection (Broker.mk [("t",
        ⟨1, 5, [[(3, ⟨10, [1], [7]⟩), (4, ⟨11, [1], [8]⟩)]]⟩)])
      ⟨1, 5, [[(3, ⟨10, [1], [7]⟩), (4, ⟨11, [1], [8]⟩)]]⟩
      [(4, ⟨11, [1], [8]⟩)] 3 ⟨10, [1], [7]⟩ (Consumer.mk "t" 0 0)
      (by decide) (by decide) (by decide) (by decide)⟩

/-! ## Claim C5: caught-up polls are idempotent -/

/-- C5: when the consumer's cursor exceeds the newest live offset of its
(well-ordered) partition, `get_next_message` reports no gap, returns `None`
and leaves the consumer unchanged; hence any number of repeated polls with
no new appends returns `None` every time.  Instantiated by the witness at a
fresh consumer (cursor 0) on an empty partition, whose sentinel offsets are
`-1 < 0`: the caught-up path is taken, not the gap path. -/
theorem caught_up_idempotent (b : Broker) (topic : Topic) (records : Store)
    (c : Consumer)
    (ht : dictGet? b.topics c.topic = some topic)
    (hrec : topic.partitions[c.partition]? = some records)
    (hsorted : (records.map Prod.fst).Pairwise (· < ·))
    (hcaught : (records.map Prod.fst).getLastD (-1) < c.offset) :
    c.get_next_message b = .ok (none, none, c) ∧
    ∀ n, pollResults b c n = List.replicate n none := by
  have hfirst : b.get_first_offset c.topic c.partition =
      .ok ((records.map Prod.fst).headD (-1)) := by
    simp [Broker.get_first_offset, ht, hrec]
  have hlast : b.get_last_offset c.topic c.partition =
      .ok ((records.map Prod.fst).getLastD (-1)) := by
    simp [Broker.get_last_offset, ht, hrec]
  have hho : (records.map Prod.fst).headD (-1) ≤ c.offset :=
    le_of_lt (lt_of_le_of_lt (headD_le_getLastD (hsorted.imp le_of_lt) (-1))
      hcaught)
  have hgap : ¬ ((records.map Prod.fst).headD (-1) > c.offset) :=
    not_lt.mpr hho
  have hread : ¬ (c.offset ≤ (records.map Prod.fst).getLastD (-1)) :=
    not_le.mpr hcaught
  have hstep : c.get_next_message b = .ok (none, none, c) := by
    simp only [Consumer.get_next_message, hfirst, hlast, Bind.bind,
      Except.bind, if_neg hgap]
    rw [if_neg hread]
    rfl
  refine ⟨hstep, ?_⟩
  intro n
  induction n with
  | zero => rfl
  | succ n ih => simp [pollResults, hstep, ih, List.replicate_succ]

/-- C5 witness: a fresh consumer at cursor 0 over a brand-new empty
partition (both sentinel offsets `-1`). -/
theorem caught_up_idempotent_witness :
    dictGet? (Broker.mk [("t", ⟨2, 10, [[], []]⟩)]).topics "t" =
      some ⟨2, 10, [[], []]⟩ ∧
    ((-1 : Int) < 0) ∧
    ((Consumer.mk "t" 0 0).get_next_message
        (Broker.mk [("t", ⟨2, 10, [[], []]⟩)]) =
        .ok (none, none, Consumer.mk "t" 0 0) ∧
      ∀ n, pollResults (Broker.mk [("t", ⟨2, 10, [[], []]⟩)])
        (Consumer.mk "t" 0 0) n = List.replicate n none) :=
  ⟨by decide, by decide,
    caught_up_idempotent (Broker.mk [("t", ⟨2, 10, [[], []]⟩)])
      ⟨2, 10, [[], []]⟩ [] (Consumer.mk "t" 0 0)
      (by decide) (by decide) (by decide) (by decide)⟩

/-! ## Claim C6: vacuum evicts exactly the expired records -/

/-- C6: vacuum removes exactly the records with
`created_at + retention_duration < now` and never renumbers: for every
offset `o`, before the vacuum `read_message` returns whatever record the
store holds at `o`, and after `Broker.vacuum` at time `now` it returns that
same record's message at the same offset `o` if the record is unexpired,
and `None` if it is expired (or was never stored).  In particular a record
appended at time `T` with retention `R` is readable while `now ≤ T + R` and
unreadable after a vacuum with `T + R < now`. -/
theorem vacuum_retention_exact (b : Broker) (t : String) (topic : Topic)
    (p : Nat) (records : Store) (now : Int)
    (ht : dictGet? b.topics t = some topic)
    (hrec : topic.partitions[p]? = some records)
    (hnd : (records.map Prod.fst).Nodup) :
    ∀ o : Int,
      b.read_message t p o = .ok ((dictGet? records o).map Record.message) ∧
      (b.vacuum now).read_message t p o =
        .ok ((dictGet? records o).bind fun r =>
          if r.timestamp + topic.retention_seconds < now then none
          else some r.message) := by
  intro o
  refine ⟨by simp [Broker.read_message, ht, hrec], ?_⟩
  have ht' : dictGet? (b.vacuum now).topics t = some (topic.vacuum now) := by
    have := dictGet?_map_value b.topics (fun tp => tp.vacuum now) t
    simp only [Broker.vacuum]
    rw [this, ht]
    rfl
  have hrec' : (topic.vacuum now).partitions[p]? =
      some (records.filter
        fun or => ¬ (or.2.timestamp + topic.retention_seconds < now)) := by
    simp [Topic.vacuum, hrec]
  simp only [Broker.read_message, ht', hrec']
  rw [dictGet?_filter hnd]
  cases h : dictGet? records o with
  | none => rfl
  | some r =>
    by_cases hexp : r.timestamp + topic.retention_seconds < now
    · simp [hexp, not_lt.mpr, le_of_lt hexp]
    · simp [hexp, not_lt.mp hexp]

/-- C6 witness: one record appended at time 0 with retention 5; before any
vacuum it is readable at offset 0, and after a vacuum at time 100 (past the
expiry 0 + 5) offset 0 reads `None`. -/
theorem vacuum_retention_exact_witness :
    dictGet? (Broker.mk [("t", ⟨1, 5, [[(0, ⟨0, [1], [42]⟩)]]⟩)]).topics "t" =
      some ⟨1, 5, [[(0, ⟨0, [1], [42]⟩)]]⟩ ∧
    (∀ o : Int,
      (Broker.mk [("t", ⟨1, 5, [[(0, ⟨0, [1], [42]⟩)]]⟩)]).read_message "t" 0 o
          = .ok ((dictGet? [((0 : Int), Record.mk 0 [1] [42])] o).map
            Record.message) ∧
      ((Broker.mk [("t", ⟨1, 5, [[(0, ⟨0, [1], [42]⟩)]]⟩)]).vacuum
          100).read_message "t" 0 o =
        .ok ((dictGet? [((0 : Int), Record.mk 0 [1] [42])] o).bind fun r =>
          if r.timestamp + (5 : Int) < 100 then none else some r.message)) :=
  ⟨by decide,
    vacuum_retention_exact (Broker.mk [("t", ⟨1, 5, [[(0, ⟨0, [1], [42]⟩)]]⟩)])
      "t" ⟨1, 5, [[(0, ⟨0, [1], [42]⟩)]]⟩ 0 [(0, ⟨0, [1], [42]⟩)] 100
      (by decide) (by decide) (by decide)⟩

/-! ## Claim C1: offset assignment across evictions -/

/-- C1 counterexample: offsets are recomputed from the *live* records, so
after a vacuum evicts every record of the partition the next append is
assigned offset 0 again — the very offset assigned to the first message —
contradicting "an offset once assigned is never assigned again".
First trace: the first send is assigned offset 0.  Second trace: after the
retention-5 record from time 0 is vacuumed at time 100, the next send is
assigned offset 0 a second time. -/
theorem offset_reuse_cx :
    runOps (Broker.mk []) [(.createTopic "t" 1 5, 0), (.send "t" [97] none, 0)]
        = Broker.mk [("t", ⟨1, 5, [[(0, ⟨0, [97], [97]⟩)]]⟩)] ∧
    runOps (Broker.mk []) [(.createTopic "t" 1 5, 0), (.send "t" [97] none, 0),
        (.vacuum, 100), (.send "t" [98] none, 100)]
        = Broker.mk [("t", ⟨1, 5, [[(0, ⟨100, [98], [98]⟩)]]⟩)] := by
  exact ⟨rfl, rfl⟩

/-- C1 (amended): an append is assigned offset `newest live offset + 1`,
which is strictly greater than every *live* offset of the partition — so
successive appends yield strictly increasing offsets and no live offset is
ever reassigned, and this also holds across evictions that leave the
partition non-empty.  But when every record has been evicted (or none was
ever stored) the next assigned offset is `-1 + 1 = 0`, so offsets of fully
evicted records are reused. -/
theorem send_assigns_next_offset (b : Broker) (t : String) (topic : Topic)
    (records : Store) (m : Msg) (key : Option Msg) (now : Int)
    (ht : dictGet? b.topics t = some topic)
    (hrec : topic.partitions[route topic.num_partitions m key]? = some records)
    (hnp : topic.num_partitions ≠ 0)
    (hsorted : (records.map Prod.fst).Pairwise (· < ·)) :
    ∃ topic',
      (b.send_message t m key now).map (fun r => dictGet? r.2.topics t) =
        .ok (some topic') ∧
      topic'.partitions[route topic.num_partitions m key]? =
        some (records ++ [((records.map Prod.fst).getLastD (-1) + 1,
          ⟨now, effectiveKey m key, m⟩)]) ∧
      (∀ o ∈ records.map Prod.fst,
        o < (records.map Prod.fst).getLastD (-1) + 1) ∧
      (records = [] → (records.map Prod.fst).getLastD (-1) + 1 = 0) := by
  have hlt : route topic.num_partitions m key < topic.partitions.length :=
    (List.getElem?_eq_some.mp hrec).1
  have hbound : ∀ o ∈ records.map Prod.fst,
      o < (records.map Prod.fst).getLastD (-1) + 1 := fun o ho =>
    lt_of_le_of_lt (mem_le_getLastD (hsorted.imp le_of_lt) ho (-1))
      (by omega)
  have hnotmem : ((records.map Prod.fst).getLastD (-1) + 1) ∉
      records.map Prod.fst := fun hmem => by
    exact absurd (hbound _ hmem) (by omega)
  refine ⟨Topic.mk topic.num_partitions topic.retention_seconds
      (topic.partitions.set (route topic.num_partitions m key)
        (records ++ [((records.map Prod.fst).getLastD (-1) + 1,
          ⟨now, effectiveKey m key, m⟩)])), ?_, ?_, hbound, ?_⟩
  · rw [show (records ++ [((records.map Prod.fst).getLastD (-1) + 1,
        (⟨now, effectiveKey m key, m⟩ : Record))]) =
      dictSet records ((records.map Prod.fst).getLastD (-1) + 1)
        ⟨now, effectiveKey m key, m⟩ from
      (dictSet_eq_append _ hnotmem).symm]
    simp [Broker.send_message, ht, hrec, hnp, Except.map, dictGet?_dictSet_self]
  · simp [List.getElem?_set_self hlt]
  · intro h
    subst h
    rfl

/-- C1 witness: a one-partition topic whose store holds live offsets 0 and
1; the send is assigned offset 2, greater than both live offsets. -/
theorem send_assigns_next_offset_witness :
    dictGet? (Broker.mk [("t",
        ⟨1, 5, [[(0, ⟨0, [9], [9]⟩), (1, ⟨1, [8], [8]⟩)]]⟩)]).topics "t" =
      some ⟨1, 5, [[(0, ⟨0, [9], [9]⟩), (1, ⟨1, [8], [8]⟩)]]⟩ ∧
    (∃ topic',
      ((Broker.mk [("t", ⟨1, 5,
          [[(0, ⟨0, [9], [9]⟩), (1, ⟨1, [8], [8]⟩)]]⟩)]).send_message
            "t" [97] none 7).map (fun r => dictGet? r.2.topics "t") =
        .ok (some topic') ∧
      topic'.partitions[route 1 [97] none]? =
        some ([(0, ⟨0, [9], [9]⟩), (1, ⟨1, [8], [8]⟩)] ++
          [(((([((0 : Int), Record.mk 0 [9] [9]),
              (1, ⟨1, [8], [8]⟩)] : Store).map Prod.fst).getLastD (-1) + 1),
            ⟨7, effectiveKey [97] none, [97]⟩)]) ∧
      (∀ o ∈ ([((0 : Int), Record.mk 0 [9] [9]),
          (1, ⟨1, [8], [8]⟩)] : Store).map Prod.fst,
        o < (([((0 : Int), Record.mk 0 [9] [9]),
          (1, ⟨1, [8], [8]⟩)] : Store).map Prod.fst).getLastD (-1) + 1) ∧
      (([((0 : Int), Record.mk 0 [9] [9]), (1, ⟨1, [8], [8]⟩)] : Store) = [] →
        (([((0 : Int), Record.mk 0 [9] [9]),
          (1, ⟨1, [8], [8]⟩)] : Store).map Prod.fst).getLastD (-1) + 1 = 0)) :=
  ⟨by decide,
    send_assigns_next_offset
      (Broker.mk [("t", ⟨1, 5, [[(0, ⟨0, [9], [9]⟩), (1, ⟨1, [8], [8]⟩)]]⟩)])
      "t" ⟨1, 5, [[(0, ⟨0, [9], [9]⟩), (1, ⟨1, [8], [8]⟩)]]⟩
      [(0, ⟨0, [9], [9]⟩), (1, ⟨1, [8], [8]⟩)] [97] none 7
      (by decide) (by decide) (by decide) (by decide)⟩

/-! ## Helper lemmas for the design-01 trace semantics -/

theorem getNext1_offset (c : Consumer1) (b : Broker1) (v : Option Msg × Consumer1)
    (h : c.get_next_message b = .ok v) : c.offset ≤ v.2.offset := by
  cases hlast : b.get_last_offset c.topic with
  | error e =>
    simp [Consumer1.get_next_message, hlast, Bind.bind, Except.bind] at h
  | ok newest =>
    by_cases hle : c.offset ≤ newest <;>
      simp [Consumer1.get_next_message, hlast, Bind.bind, Except.bind, hle,
        pure, Except.pure] at h <;>
      simp [← h]

theorem step1_offset_mono (b : Broker1) (c : Consumer1) (op : Op1) :
    c.offset ≤ (step1 b c op).2.offset := by
  cases op with
  | send t m =>
    cases h : b.send_message t m <;> simp [step1, h]
  | poll =>
    cases h : c.get_next_message b with
    | error e => simp [step1, h]
    | ok v => simpa [step1, h] using getNext1_offset c b v h

theorem runReads1_lower (k : Nat) (ops : List Op1) :
    ∀ (b : Broker1) (c : Consumer1), k < c.offset → k ∉ runReads1 b c ops := by
  induction ops with
  | nil =>
    intro b c _
    simp [runReads1]
  | cons op rest ih =>
    intro b c h
    simp only [runReads1, List.mem_append, not_or]
    refine ⟨?_, ih _ _ (lt_of_lt_of_le h (step1_offset_mono b c op))⟩
    cases op with
    | send t m => simp
    | poll =>
      cases hlast : b.get_last_offset c.topic with
      | error e => simp [pollRead1, hlast]
      | ok newest =>
        by_cases hle : c.offset ≤ newest <;> simp [pollRead1, hlast, hle]
        omega

/-! ## Claim C9: the count-based off-by-one of the earlier designs -/

/-- C9: in the non-retention-aware designs, `get_last_offset` is the stored
record *count*; when a consumer's cursor equals that count the guard
`cursor ≤ count` still passes, so the poll reads one past the last valid
index (getting `None`) while advancing the cursor anyway.  A message
appended afterwards sits exactly at that skipped offset (the old count),
and since a poll's cursor never decreases, no later poll of that consumer
ever reads that offset again, over any broker evolution: the message is
permanently skipped.  The final conjunct shows the partitioned design 02
has the same count-based off-by-one. -/
theorem count_based_last_offset_off_by_one (b : Broker1) (t : String)
    (l : List Msg) (c : Consumer1) (m : Msg)
    (ht : dictGet? b.topics t = some l)
    (hc : c.topic = t) (hoff : c.offset = l.length) :
    b.get_last_offset t = .ok l.length ∧
    b.read_message t l.length = none ∧
    c.get_next_message b = .ok (none, ⟨c.topic, l.length + 1⟩) ∧
    (b.send_message t m = .ok ⟨dictSet b.topics t (l ++ [m])⟩ ∧
      dictGet? (dictSet b.topics t (l ++ [m])) t = some (l ++ [m]) ∧
      (l ++ [m])[l.length]? = some m) ∧
    (∀ (b₂ : Broker1) (ops : List Op1),
      l.length ∉ runReads1 b₂ ⟨c.topic, l.length + 1⟩ ops) ∧
    (∀ (b₂ : Broker2) (t₂ : String) (tp : Topic2) (lp : List Msg)
        (c₂ : Consumer2),
      dictGet? b₂.topics t₂ = some tp →
      tp.partitions[c₂.partition]? = some lp →
      c₂.topic = t₂ → c₂.offset = lp.length →
      c₂.get_next_message b₂ =
        .ok (none, ⟨c₂.topic, c₂.partition, lp.length + 1⟩)) := by
  subst hc
  have hread : b.read_message c.topic l.length = none := by
    simp [Broker1.read_message, ht, List.getElem?_eq_none le_rfl]
  refine ⟨by simp [Broker1.get_last_offset, ht], hread, ?_, ?_, ?_, ?_⟩
  · simp [Consumer1.get_next_message, Broker1.get_last_offset, ht, Bind.bind,
      Except.bind, hoff, hread]
    rfl
  · refine ⟨by simp [Broker1.send_message, ht], dictGet?_dictSet_self .., ?_⟩
    exact List.getElem?_concat_length l m
  · intro b₂ ops
    exact runReads1_lower l.length ops b₂ ⟨c.topic, l.length + 1⟩
      (Nat.lt_succ_self l.length)
  · intro b₂ t₂ tp lp c₂ ht₂ hp₂ hc₂ hoff₂
    subst hc₂
    have hread₂ : b₂.read_message c₂.topic c₂.partition lp.length =
        .ok none := by
      simp [Broker2.read_message, ht₂, hp₂, List.getElem?_eq_none le_rfl]
    simp [Consumer2.get_next_message, Broker2.get_last_offset, ht₂, hp₂,
      Bind.bind, Except.bind, hoff₂, hread₂]
    rfl

/-- C9 witness: an empty topic and a consumer whose cursor equals the
record count 0: the poll reads past the end, returns `None`, advances to
cursor 1, and the message `[5]` appended afterwards at offset 0 is never
read by any later poll. -/
theorem count_based_last_offset_off_by_one_witness :
    dictGet? (Broker1.mk [("t", [])]).topics "t" = some [] ∧
    (Consumer1.mk "t" 0).topic = "t" ∧
    (Consumer1.mk "t" 0).offset = ([] : List Msg).length ∧
    ((Broker1.mk [("t", [])]).get_last_offset "t" = .ok 0 ∧
      (Broker1.mk [("t", [])]).read_message "t" 0 = none ∧
      (Consumer1.mk "t" 0).get_next_message (Broker1.mk [("t", [])]) =
        .ok (none, ⟨"t", 1⟩) ∧
      ((Broker1.mk [("t", [])]).send_message "t" [5] =
          .ok ⟨[("t", [[5]])]⟩ ∧
        dictGet? [("t", [[5]])] "t" = some [[5]] ∧
        ([[5]] : List Msg)[0]? = some [5]) ∧
      (∀ (b₂ : Broker1) (ops : List Op1),
        0 ∉ runReads1 b₂ ⟨"t", 1⟩ ops) ∧
      (∀ (b₂ : Broker2) (t₂ : String) (tp : Topic2) (lp : List Msg)
          (c₂ : Consumer2),
        dictGet? b₂.topics t₂ = some tp →
        tp.partitions[c₂.partition]? = some lp →
        c₂.topic = t₂ → c₂.offset = lp.length →
        c₂.get_next_message b₂ =
          .ok (none, ⟨c₂.topic, c₂.partition, lp.length + 1⟩))) :=
  ⟨by decide, rfl, rfl,
    count_based_last_offset_off_by_one (Broker1.mk [("t", [])]) "t" []
      (Consumer1.mk "t" 0) [5] (by decide) rfl rfl⟩

/-! ## Helper lemmas for the retention-aware trace invariant -/

theorem brokerInv_mono {T T' : Int} {b : Broker} (h : BrokerInv T b)
    (hT : T ≤ T') : BrokerInv T' b := by
  intro nt hnt s hs
  exact ⟨(h nt hnt s hs).1, fun or hor =>
    le_trans ((h nt hnt s hs).2 or hor) hT⟩

theorem storeInv_append (s : Store) (rec : Record) (hinv : StoreInv s)
    (hbd : ∀ or ∈ s, or.2.timestamp ≤ rec.timestamp) :
    StoreInv (s ++ [((s.map Prod.fst).getLastD (-1) + 1, rec)]) := by
  constructor
  · rw [List.map_append, List.chain'_append]
    refine ⟨hinv.1, List.chain'_singleton _, ?_⟩
    intro x hx y hy
    simp only [List.map_cons, List.map_nil, List.head?_cons,
      Option.mem_def, Option.some.injEq] at hy
    have hlast : (s.map Prod.fst).getLastD (-1) = x := by
      rw [List.getLastD_eq_getLast?, Option.mem_def.mp hx]
      rfl
    omega
  · rw [List.map_append, List.chain'_append]
    refine ⟨hinv.2, List.chain'_singleton _, ?_⟩
    intro x hx y hy
    simp only [List.map_cons, List.map_nil, List.head?_cons,
      Option.mem_def, Option.some.injEq] at hy
    subst hy
    have hx' : x ∈ s.map fun or => or.2.timestamp :=
      List.mem_of_mem_getLast? (Option.mem_def.mp hx)
    obtain ⟨or, hor, rfl⟩ := List.mem_map.mp hx'
    exact hbd or hor

theorem brokerInv_send {T now : Int} {b : Broker} (t : String) (m : Msg)
    (key : Option Msg) (hinv : BrokerInv T b) (hT : T ≤ now) :
    BrokerInv now (stepOp b (.send t m key) now) := by
  cases ht : dictGet? b.topics t with
  | none =>
    simp only [stepOp, Broker.send_message, ht]
    exact brokerInv_mono hinv hT
  | some topic =>
    by_cases hnp : topic.num_partitions = 0
    · simp only [stepOp, Broker.send_message, ht, hnp, if_pos rfl]
      exact brokerInv_mono hinv hT
    · cases hrec : topic.partitions[route topic.num_partitions m key]? with
      | none =>
        simp only [stepOp, Broker.send_message, ht, if_neg hnp, hrec]
        exact brokerInv_mono hinv hT
      | some records =>
        have hmem : (t, topic) ∈ b.topics := mem_map_fst_of_dictGet? ht
        have hrecmem : records ∈ topic.partitions := List.getElem?_mem hrec
        have hstore := hinv (t, topic) hmem records hrecmem
        have hkeys : (records.map Prod.fst).Pairwise (· < ·) :=
          pairwise_lt_of_chain_succ hstore.1.1
        have hnotmem : ((records.map Prod.fst).getLastD (-1) + 1) ∉
            records.map Prod.fst := fun hmem' => by
          have := mem_le_getLastD (hkeys.imp le_of_lt) hmem' (-1)
          omega
        simp only [stepOp, Broker.send_message, ht, if_neg hnp, hrec]
        intro nt hnt s hs
        rcases mem_dictSet hnt with hnt' | hnt'
        · exact ⟨(hinv nt hnt' s hs).1, fun or hor =>
            le_trans ((hinv nt hnt' s hs).2 or hor) hT⟩
        · subst hnt'
          rcases List.mem_or_eq_of_mem_set hs with hs' | hs'
          · exact ⟨(hinv (t, topic) hmem s hs').1, fun or hor =>
              le_trans ((hinv (t, topic) hmem s hs').2 or hor) hT⟩
          · rw [dictSet_eq_append _ hnotmem] at hs'
            subst hs'
            have hbd : ∀ or ∈ records, or.2.timestamp ≤
                (Record.mk now (effectiveKey m key) m).timestamp :=
              fun or hor => le_trans (hstore.2 or hor) hT
            refine ⟨storeInv_append records _ hstore.1 hbd, ?_⟩
            intro or hor
            rcases List.mem_append.mp hor with h' | h'
            · exact le_trans (hstore.2 or h') hT
            · simp only [List.mem_singleton] at h'
              subst h'
              exact le_rfl

theorem brokerInv_step {T now : Int} {b : Broker} (op : Op)
    (hinv : BrokerInv T b) (hT : T ≤ now) :
    BrokerInv now (stepOp b op now) := by
  cases op with
  | createTopic name np ret =>
    intro nt hnt s hs
    rcases mem_dictSet hnt with hnt' | hnt'
    · exact ⟨(hinv nt hnt' s hs).1, fun or hor =>
        le_trans ((hinv nt hnt' s hs).2 or hor) hT⟩
    · subst hnt'
      have : s = [] := List.eq_of_mem_replicate hs
      subst this
      exact ⟨⟨List.chain'_nil, List.chain'_nil⟩, by simp⟩
  | send t m k => exact brokerInv_send t m k hinv hT
  | vacuum =>
    intro nt hnt s hs
    simp only [stepOp, Broker.vacuum, List.mem_map] at hnt
    obtain ⟨⟨tn, topic⟩, hmem, rfl⟩ := hnt
    simp only [Topic.vacuum, List.mem_map] at hs
    obtain ⟨s₀, hs₀, rfl⟩ := hs
    have hstore := hinv (tn, topic) hmem s₀ hs₀
    refine ⟨(storeInv_filter_keep topic.retention_seconds now hstore.1).2, ?_⟩
    intro or hor
    exact le_trans (hstore.2 or (List.mem_of_mem_filter hor)) hT

theorem brokerInv_runOps : ∀ (ops : List (Op × Int)) (T : Int) (b : Broker),
    BrokerInv T b → ((T :: ops.map Prod.snd).Chain' (· ≤ ·)) →
    ∃ T', BrokerInv T' (runOps b ops) := by
  intro ops
  induction ops with
  | nil => exact fun T b h _ => ⟨T, h⟩
  | cons opt rest ih =>
    intro T b hinv hchain
    simp only [List.map_cons] at hchain
    have h1 : T ≤ opt.2 := (List.chain'_cons.mp hchain).1
    have h2 : ((opt.2 :: rest.map Prod.snd).Chain' (· ≤ ·)) :=
      (List.chain'_cons.mp hchain).2
    exact ih opt.2 (stepOp b opt.1 opt.2)
      (brokerInv_step opt.1 hinv h1) h2

/-! ## Claim C10: reachable stores are contiguous; vacuum evicts prefixes -/

/-- C10: along any trace of operations from a fresh broker in which the
clock readings are non-decreasing, every partition store keeps (i) live
offsets that are consecutive — each key is its predecessor plus one, so the
live offsets always form a contiguous range — and (ii) record timestamps
that are non-decreasing in offset order; consequently (second conjunct)
vacuuming any reachable topic removes a downward-closed prefix of the live
records, leaving a suffix of the store. -/
theorem live_offsets_contiguous (ops : List (Op × Int))
    (hmono : (ops.map Prod.snd).Chain' (· ≤ ·)) :
    (∀ nt ∈ (runOps (Broker.mk []) ops).topics, ∀ s ∈ nt.2.partitions,
      (s.map Prod.fst).Chain' (fun a b => b = a + 1) ∧
      (s.map fun or => or.2.timestamp).Chain' (· ≤ ·)) ∧
    (∀ nt ∈ (runOps (Broker.mk []) ops).topics, ∀ now : Int, ∀ p : Nat,
      ∀ s s' : Store, nt.2.partitions[p]? = some s →
      (nt.2.vacuum now).partitions[p]? = some s' → s' <:+ s) := by
  have hchain : (((ops.map Prod.snd).headD 0) ::
      ops.map Prod.snd).Chain' (· ≤ ·) := by
    rw [List.chain'_cons']
    refine ⟨?_, hmono⟩
    intro y hy
    cases hm : ops.map Prod.snd with
    | nil => simp [hm] at hy
    | cons a l =>
      rw [hm] at hy
      simp only [List.head?_cons, Option.mem_def, Option.some.injEq] at hy
      subst hy
      simp [hm]
  have hinit : BrokerInv ((ops.map Prod.snd).headD 0) (Broker.mk []) := by
    intro nt hnt
    cases hnt
  obtain ⟨T', hinv⟩ :=
    brokerInv_runOps ops ((ops.map Prod.snd).headD 0) (Broker.mk []) hinit
      hchain
  refine ⟨fun nt hnt s hs => (hinv nt hnt s hs).1, ?_⟩
  intro nt hnt now p s s' hs hs'
  have hsmem : s ∈ nt.2.partitions := List.getElem?_mem hs
  have hstoreInv : StoreInv s := (hinv nt hnt s hsmem).1
  have hvac : (nt.2.vacuum now).partitions[p]? =
      some (s.filter
        fun or => ¬ (or.2.timestamp + nt.2.retention_seconds < now)) := by
    simp [Topic.vacuum, List.getElem?_map, hs]
  rw [hvac] at hs'
  injection hs' with hs'
  subst hs'
  exact (storeInv_filter_keep nt.2.retention_seconds now hstoreInv).1

/-- C10 witness: the trace create–send–vacuum with clock readings 0, 1, 2. -/
theorem live_offsets_contiguous_witness :
    (([((Op.createTopic "t" 1 5 : Op), (0 : Int)), (.send "t" [97] none, 1),
        (.vacuum, 2)].map Prod.snd).Chain' (· ≤ ·)) ∧
    ((∀ nt ∈ (runOps (Broker.mk []) [(Op.createTopic "t" 1 5, 0),
        (.send "t" [97] none, 1), (.vacuum, 2)]).topics,
      ∀ s ∈ nt.2.partitions,
        (s.map Prod.fst).Chain' (fun a b => b = a + 1) ∧
        (s.map fun or => or.2.timestamp).Chain' (· ≤ ·)) ∧
    (∀ nt ∈ (runOps (Broker.mk []) [(Op.createTopic "t" 1 5, 0),
        (.send "t" [97] none, 1), (.vacuum, 2)]).topics,
      ∀ now : Int, ∀ p : Nat, ∀ s s' : Store,
        nt.2.partitions[p]? = some s →
        (nt.2.vacuum now).partitions[p]? = some s' → s' <:+ s)) :=
  ⟨by simp [List.chain'_cons, List.chain'_singleton],
    live_offsets_contiguous
      [(Op.createTopic "t" 1 5, 0), (.send "t" [97] none, 1), (.vacuum, 2)]
      (by simp [List.chain'_cons, List.chain'_singleton])⟩
